import Mathlib

/-!
Shallow embedding of `worktime_tracker/worktime_tracker.py`.

The log file is modelled as a list of parsed entries (timestamp, state),
in file order.  Timestamps are rationals (the Python code works on floats;
we idealise them as exact rationals, and model the `:.6f` formatting used
by `rewrite_history` as decimal rounding to six places).  Fallible code
(assertion failures, `IndexError`, unpacking `None`) is modelled with
`Except String`.
-/

namespace Worktime

/-- A parsed log line: `(timestamp, state)`. -/
abbrev LogEntry := ℚ × String

/-- Modelled from the spec: `reverse_read_line` (from the repository's
`utils` module, absent from the sources) produces the raw entries from
newest to oldest, reading the backing storage from its tail. -/
def reverseReadLine (file : List LogEntry) : List LogEntry :=
  file.reverse

/-- Python `f-string` formatting with six decimal places (`:.6f`):
round to a multiple of `10 ^ (-6)`, ties to even. -/
def round6 (q : ℚ) : ℚ :=
  let scaled : ℚ := q * 1000000
  let n : ℤ := ⌊scaled⌋
  let frac : ℚ := scaled - n
  let r : ℤ :=
    if 1 / 2 < frac then n + 1
    else if frac < 1 / 2 then n
    else if n % 2 = 0 then n else n + 1
  (r : ℚ) / 1000000

/-- `read_last_log`: the last line of the file, `none` when the file is
empty (the Python function catches `StopIteration` and returns `None`). -/
def readLastLog (file : List LogEntry) : Option LogEntry :=
  (reverseReadLine file).head?

/-- `maybe_write_log(timestamp, state)`: unpacks `read_last_log()` (a
`TypeError` on an empty file), returns the file unchanged when the last
state equals `state`, otherwise appends the entry. -/
def maybeWriteLog (file : List LogEntry) (timestamp : ℚ) (state : String) :
    Except String (List LogEntry) :=
  match readLastLog file with
  | none => .error "TypeError"
  | some (_, lastState) =>
    if lastState = state then .ok file
    else .ok (file ++ [(timestamp, state)])

/-- The loop body of `get_logs`, iterating over the reverse line
generator: entries newer than the clipped end are skipped, the first
entry older than `startT` is replaced by a boundary dated `startT`
carrying its state (and the scan stops), every other entry is kept. -/
def scanBack (endT startT : ℚ) : List LogEntry → List LogEntry
  | [] => []
  | (t, s) :: rest =>
    if endT < t then scanBack endT startT rest
    else if t < startT then [(startT, s)]
    else (t, s) :: scanBack endT startT rest

/-- `get_logs(start_timestamp, end_timestamp)` evaluated when the wall
clock reads `now`: clips the end at `now`, prepends the scanned entries
to the virtual `(end, 'idle')` entry and reverses the whole list back
into ascending order. -/
def getLogs (file : List LogEntry) (startT endT now : ℚ) : List LogEntry :=
  let e := min endT now
  (scanBack e startT (reverseReadLine file)).reverse ++ [(e, "idle")]

/-- `defaultdict(float)` update `m[s] += q`: the first binding of `s` is
updated in place, a missing key is appended with initial value `0`. -/
def addTime : List (String × ℚ) → String → ℚ → List (String × ℚ)
  | [], s, q => [(s, q)]
  | (k, v) :: rest, s, q =>
    if k = s then (k, v + q) :: rest else (k, v) :: addTime rest s q

/-- The loop of `get_cum_times_per_state` over `logs[1:]`, carrying the
current run's start timestamp and state. -/
def cumLoop (startT : ℚ) (curT : ℚ) (curS : String) :
    List LogEntry → List (String × ℚ) → List (String × ℚ)
  | [], m => m
  | (t, s) :: rest, m =>
    if s = curS then cumLoop startT curT curS rest m
    else cumLoop startT t s rest (addTime m curS (t - max curT startT))

/-- `get_cum_times_per_state(start_timestamp, end_timestamp)` evaluated
when the wall clock reads `now`. -/
def getCumTimes (file : List LogEntry) (startT endT now : ℚ) :
    Except String (List (String × ℚ)) :=
  if startT < endT then
    match getLogs file startT endT now with
    | [] => .error "IndexError"
    | (t0, s0) :: rest => .ok (cumLoop startT t0 s0 rest [])
  else .error "AssertionError"

/-- Sum of all per-state totals of an aggregation result. -/
def totalOf (m : List (String × ℚ)) : ℚ :=
  (m.map Prod.snd).sum

/-- Value stored for state `s` in an aggregation result (`0` when the
state was never written, as for a `defaultdict(float)` read). -/
def lookupTime (m : List (String × ℚ)) (s : String) : ℚ :=
  ((m.find? (fun p => p.1 = s)).map Prod.snd).getD 0

/-- Splicing step of `rewrite_history`: prepend to `logs_after` a
boundary dated `end` carrying the last inside state, or — when the
rewritten window contains no entry — the first after state
(`logs_after[0]` raises `IndexError` on an empty list). -/
def spliceAfter (logsInside logsAfter : List LogEntry) (endT : ℚ) :
    Except String (List LogEntry) :=
  match logsInside.getLast? with
  | some lastIn => .ok ((round6 endT, lastIn.2) :: logsAfter)
  | none =>
    match logsAfter.head? with
    | some a0 => .ok ((round6 endT, a0.2) :: logsAfter)
    | none => .error "IndexError"

/-- Duplicate-collapse and reassembly steps of `rewrite_history`:
`logs_before[-1]` raises `IndexError` on an empty before partition; a
last before entry already carrying `new_state` is dropped and the
insertion timestamp shifts back to its timestamp; a first after entry
carrying `new_state` is dropped; the three groups are concatenated. -/
def dedupAssemble (logsBefore logsAfter : List LogEntry) (startT : ℚ)
    (newState : String) : Except String (List LogEntry) :=
  match logsBefore.getLast? with
  | none => .error "IndexError"
  | some bl =>
    match logsAfter with
    | [] => .error "IndexError"
    | a0 :: rest =>
      .ok ((if bl.2 = newState then logsBefore.dropLast else logsBefore) ++
        [(round6 (if bl.2 = newState then bl.1 else startT), newState)] ++
        (if a0.2 = newState then rest else a0 :: rest))

/-- `rewrite_history(start_timestamp, end_timestamp, new_state)`
evaluated when the wall clock reads `now`: reloads the whole history via
`get_logs(0, now)` (whose result carries the virtual `(now, 'idle')`
close), asserts `end < logs[-1][0]`, partitions by timestamp into
before/after/inside, splices, collapses duplicates and reassembles.  An
`error` result models an exception raised before the file is rewritten. -/
def rewriteHistory (file : List LogEntry) (now startT endT : ℚ)
    (newState : String) : Except String (List LogEntry) :=
  match (getLogs file 0 now now).getLast? with
  | none => .error "IndexError"
  | some lastLog =>
    if endT < lastLog.1 then
      match spliceAfter
          ((getLogs file 0 now now).filter fun p => startT ≤ p.1 ∧ p.1 ≤ endT)
          ((getLogs file 0 now now).filter fun p => endT < p.1) endT with
      | .error e => .error e
      | .ok after2 =>
        dedupAssemble ((getLogs file 0 now now).filter fun p => p.1 < startT)
          after2 startT newState
    else .error "AssertionError: Rewriting the future not allowed"

/-- Contents of the log file after a `rewrite_history` call: the
reassembled history on success, the unchanged file when an exception is
raised (the file is only opened for writing at the very end). -/
def persistRewrite (file : List LogEntry) (now startT endT : ℚ)
    (newState : String) : List LogEntry :=
  match rewriteHistory file now startT endT newState with
  | .ok l => l
  | .error _ => file

/-- `WorktimeTracker.current_state`: `read_last_log()[1]`, a `TypeError`
(subscripting `None`) on an empty file. -/
def currentState (file : List LogEntry) : Except String String :=
  match readLastLog file with
  | none => .error "TypeError"
  | some p => .ok p.2

/-- `WorktimeTracker.maybe_append_and_write_log`: the guard
`if self.read_only:` is followed by the bare expression `False` with no
`return`, so the body falls through to `maybe_write_log` regardless. -/
def maybeAppendAndWriteLog (readOnly : Bool) (file : List LogEntry)
    (timestamp : ℚ) (state : String) : Except String (List LogEntry) :=
  let _discarded := readOnly
  maybeWriteLog file timestamp state

/-- `WorktimeTracker.check_state` with the sampled state and wall clock
as parameters: unpacks `read_last_log()` (a `TypeError` on an empty
file), records the last-check marker, appends through
`maybe_append_and_write_log`, and reports whether the state changed.
The `ok` result carries (marker timestamp, new file, changed flag). -/
def checkState (readOnly : Bool) (file : List LogEntry)
    (sampledState : String) (now : ℚ) :
    Except String (ℚ × List LogEntry × Bool) :=
  match readLastLog file with
  | none => .error "TypeError"
  | some (_, lastState) =>
    match maybeAppendAndWriteLog readOnly file now sampledState with
    | .error e => .error e
    | .ok file' => .ok (now, file', sampledState ≠ lastState)

/-- Invariant I1: no two adjacent entries share the same state. -/
def noAdjDup (l : List LogEntry) : Prop :=
  List.Chain' (fun a b => a.2 ≠ b.2) l

instance noAdjDupDecidable : ∀ l, Decidable (noAdjDup l)
  | [] => isTrue List.chain'_nil
  | [a] => isTrue (List.chain'_singleton a)
  | a :: b :: rest =>
    haveI := noAdjDupDecidable (b :: rest)
    decidable_of_iff (a.2 ≠ b.2 ∧ noAdjDup (b :: rest))
      (by unfold noAdjDup
          exact (@List.chain'_cons _ (fun a b : LogEntry => a.2 ≠ b.2)
            a b rest).symm)

/-- A finite sequence of `maybe_write_log` calls, applied in order; the
first exception aborts the sequence. -/
def applyAppends (file : List LogEntry) :
    List (ℚ × String) → Except String (List LogEntry)
  | [] => .ok file
  | (t, s) :: ops =>
    match maybeWriteLog file t s with
    | .error e => .error e
    | .ok file' => applyAppends file' ops

/-- The state in effect at time `t` for a (sorted) stored log: the state
of the last entry dated at or before `t`. -/
def effectiveState (file : List LogEntry) (t : ℚ) : Option String :=
  ((file.filter fun p => p.1 ≤ t).getLast?).map Prod.snd

/-! ## Helper lemmas -/

theorem readLastLog_eq_getLast? (file : List LogEntry) :
    readLastLog file = file.getLast? := by
  simp [readLastLog, reverseReadLine]

theorem maybeWriteLog_ok_noAdjDup {file g : List LogEntry} {t : ℚ}
    {s : String} (h : noAdjDup file)
    (hok : maybeWriteLog file t s = .ok g) : noAdjDup g := by
  unfold maybeWriteLog at hok
  rw [readLastLog_eq_getLast?] at hok
  split at hok
  · cases hok
  · rename_i t0 s0 heq
    split at hok
    · cases hok
      exact h
    · rename_i hs
      cases hok
      refine (List.chain'_append).2 ⟨h, List.chain'_singleton _, ?_⟩
      intro x hx y hy
      rw [heq] at hx
      cases hx
      cases hy
      exact hs

theorem maybeWriteLog_ok_getLast? {file g : List LogEntry} {t : ℚ}
    {s : String} (hok : maybeWriteLog file t s = .ok g) :
    (g.getLast?).map Prod.snd = some s := by
  unfold maybeWriteLog at hok
  rw [readLastLog_eq_getLast?] at hok
  split at hok
  · cases hok
  · rename_i t0 s0 heq
    split at hok
    · rename_i hs
      cases hok
      rw [heq, hs]
      rfl
    · cases hok
      rw [List.getLast?_concat]
      rfl

theorem applyAppends_same_state_noop {file : List LogEntry} {s : String}
    (h : (file.getLast?).map Prod.snd = some s) :
    ∀ us : List ℚ, applyAppends file (us.map fun u => (u, s)) = .ok file := by
  intro us
  induction us with
  | nil => rfl
  | cons u us ih =>
    have hw : maybeWriteLog file u s = .ok file := by
      unfold maybeWriteLog
      rw [readLastLog_eq_getLast?]
      cases hl : file.getLast? with
      | none => rw [hl] at h; cases h
      | some p =>
        rw [hl] at h
        have hps : p.2 = s := by simpa using h
        obtain ⟨t0, s0⟩ := p
        show (if s0 = s then Except.ok file
            else Except.ok (file ++ [(u, s)])) = Except.ok file
        rw [if_pos hps]
    simp only [List.map_cons, applyAppends, hw]
    exact ih

theorem scanBack_mem {endT startT : ℚ} {x : LogEntry} :
    ∀ {l : List LogEntry}, x ∈ scanBack endT startT l →
      x ∈ l ∨ (x.1 = startT ∧ ∃ y ∈ l, y.1 < startT ∧ y.2 = x.2) := by
  intro l hx
  induction l with
  | nil => cases hx
  | cons p rest ih =>
    obtain ⟨t, s⟩ := p
    unfold scanBack at hx
    by_cases h1 : endT < t
    · rw [if_pos h1] at hx
      rcases ih hx with h | ⟨he, y, hy, hlt, hsy⟩
      · exact Or.inl (List.mem_cons_of_mem _ h)
      · exact Or.inr ⟨he, y, List.mem_cons_of_mem _ hy, hlt, hsy⟩
    · rw [if_neg h1] at hx
      by_cases h2 : t < startT
      · rw [if_pos h2] at hx
        rcases List.mem_singleton.1 hx with rfl
        exact Or.inr ⟨rfl, (t, s), List.mem_cons_self _ _, h2, rfl⟩
      · rw [if_neg h2] at hx
        rcases List.mem_cons.1 hx with rfl | hx'
        · exact Or.inl (List.mem_cons_self _ _)
        · rcases ih hx' with h | ⟨he, y, hy, hlt, hsy⟩
          · exact Or.inl (List.mem_cons_of_mem _ h)
          · exact Or.inr ⟨he, y, List.mem_cons_of_mem _ hy, hlt, hsy⟩

theorem getLogs_rewrite_mem {file : List LogEntry} {now : ℚ} {x : LogEntry}
    (hx : x ∈ getLogs file 0 now now) :
    x ∈ file ∨ (x.1 = 0 ∧ ∃ y ∈ file, y.1 < 0) ∨ x = (now, "idle") := by
  unfold getLogs at hx
  rw [min_self] at hx
  rcases List.mem_append.1 hx with hx' | hx'
  · rw [List.mem_reverse] at hx'
    rcases scanBack_mem hx' with h | ⟨he, y, hy, hlt, _⟩
    · exact Or.inl (by simpa [reverseReadLine] using h)
    · exact Or.inr (Or.inl ⟨he, y, by simpa [reverseReadLine] using hy, hlt⟩)
  · exact Or.inr (Or.inr (List.mem_singleton.1 hx'))

theorem scanBack_sorted {e st : ℚ} (hse : st ≤ e) :
    ∀ r : List LogEntry, List.Pairwise (fun a b : LogEntry => b.1 ≤ a.1) r →
      scanBack e st r =
        r.filter (fun p => st ≤ p.1 ∧ p.1 ≤ e) ++
          (((r.filter fun p => p.1 < st).head?).map fun p =>
            ((st, p.2) : LogEntry)).toList := by
  intro r hr
  induction r with
  | nil => rfl
  | cons p rest ih =>
    obtain ⟨t, s⟩ := p
    have hrest := hr.of_cons
    have hhead : ∀ q ∈ rest, q.1 ≤ t := fun q hq =>
      (List.pairwise_cons.1 hr).1 q hq
    unfold scanBack
    by_cases h1 : e < t
    · rw [if_pos h1, ih hrest]
      have hc1 : ¬ (st ≤ t ∧ t ≤ e) := fun hc => absurd h1 (not_lt.2 hc.2)
      have hc2 : ¬ t < st := not_lt.2 (le_of_lt (lt_of_le_of_lt hse h1))
      simp [List.filter_cons, hc1, hc2]
    · rw [if_neg h1]
      by_cases h2 : t < st
      · rw [if_pos h2]
        have hf1 : List.filter (fun p => decide (st ≤ p.1 ∧ p.1 ≤ e))
            ((t, s) :: rest) = [] := by
          rw [List.filter_eq_nil_iff]
          intro q hq
          rcases List.mem_cons.1 hq with rfl | hq'
          · simp only [decide_eq_true_eq, not_and]
            intro hst
            exact absurd (lt_of_lt_of_le h2 hst) (lt_irrefl _)
          · simp only [decide_eq_true_eq, not_and]
            intro hst
            exact absurd h2 (not_lt.2 (le_trans hst (hhead q hq')))
        have hf2 : List.filter (fun p => decide (p.1 < st))
            ((t, s) :: rest) = (t, s) :: rest.filter fun p => p.1 < st :=
          List.filter_cons_of_pos (by simpa using h2)
        rw [hf1, hf2]
        simp
      · rw [if_neg h2, ih hrest]
        have hc1 : st ≤ t ∧ t ≤ e := ⟨not_lt.1 h2, not_lt.1 h1⟩
        have hf1 : List.filter (fun p => decide (st ≤ p.1 ∧ p.1 ≤ e))
            ((t, s) :: rest) =
              (t, s) :: rest.filter fun p => st ≤ p.1 ∧ p.1 ≤ e :=
          List.filter_cons_of_pos (by simpa using hc1)
        have hf2 : List.filter (fun p => decide (p.1 < st))
            ((t, s) :: rest) = rest.filter fun p => p.1 < st :=
          List.filter_cons_of_neg (by simpa using h2)
        rw [hf1, hf2]
        simp

theorem getLogs_sorted {file : List LogEntry} {st endT now : ℚ}
    (hsort : List.Pairwise (fun a b : LogEntry => a.1 ≤ b.1) file)
    (hse : st ≤ min endT now) :
    getLogs file st endT now =
      (((file.filter fun p => p.1 < st).getLast?).map fun p =>
          ((st, p.2) : LogEntry)).toList ++
        file.filter (fun p => st ≤ p.1 ∧ p.1 ≤ min endT now) ++
        [(min endT now, "idle")] := by
  unfold getLogs reverseReadLine
  show (scanBack (min endT now) st file.reverse).reverse ++
      [(min endT now, "idle")] = _
  have hrev : List.Pairwise (fun a b : LogEntry => b.1 ≤ a.1) file.reverse :=
    List.pairwise_reverse.2 hsort
  rw [scanBack_sorted hse file.reverse hrev]
  simp only [List.reverse_append, List.filter_reverse, List.reverse_reverse,
    List.head?_reverse, List.append_assoc]
  congr 1
  cases (List.filter (fun p => decide (p.1 < st)) file).getLast? with
  | none => rfl
  | some p => rfl

theorem filter_le_split {file : List LogEntry} {st e : ℚ}
    (hsort : List.Pairwise (fun a b : LogEntry => a.1 ≤ b.1) file)
    (hse : st ≤ e) :
    file.filter (fun p => p.1 ≤ e) =
      file.filter (fun p => p.1 < st) ++
        file.filter fun p => st ≤ p.1 ∧ p.1 ≤ e := by
  induction file with
  | nil => rfl
  | cons p rest ih =>
    obtain ⟨t, s⟩ := p
    have hrest := hsort.of_cons
    have hhead : ∀ q ∈ rest, t ≤ q.1 := fun q hq =>
      (List.pairwise_cons.1 hsort).1 q hq
    by_cases h2 : t < st
    · have hte : t ≤ e := le_trans (le_of_lt h2) hse
      rw [List.filter_cons_of_pos (by simpa using hte),
        List.filter_cons_of_pos (by simpa using h2),
        List.filter_cons_of_neg
          (by simp only [decide_eq_true_eq, not_and]
              intro hst
              exact absurd h2 (not_lt.2 hst)),
        ih hrest]
      rfl
    · have hall : ∀ q ∈ (t, s) :: rest, st ≤ q.1 := by
        intro q hq
        rcases List.mem_cons.1 hq with rfl | hq'
        · exact not_lt.1 h2
        · exact le_trans (not_lt.1 h2) (hhead q hq')
      have hnone : List.filter (fun p => decide (p.1 < st))
          ((t, s) :: rest) = [] := by
        rw [List.filter_eq_nil_iff]
        intro q hq
        simp only [decide_eq_true_eq]
        exact not_lt.2 (hall q hq)
      have hcongr : List.filter (fun p => decide (p.1 ≤ e))
          ((t, s) :: rest) =
            List.filter (fun p => decide (st ≤ p.1 ∧ p.1 ≤ e))
              ((t, s) :: rest) := by
        apply List.filter_congr
        intro q hq
        simp only [decide_eq_true_eq, decide_eq_decide]
        exact (and_iff_right (hall q hq)).symm
      rw [hnone, hcongr]
      rfl

theorem mapSnd_getLastD (l : List LogEntry) (d : String) :
    (l.map Prod.snd).getLastD d = ((l.getLast?).map Prod.snd).getD d := by
  rw [List.getLastD_eq_getLast?, List.getLast?_map]

theorem totalOf_addTime (m : List (String × ℚ)) (s : String) (q : ℚ) :
    totalOf (addTime m s q) = totalOf m + q := by
  induction m with
  | nil => simp [addTime, totalOf]
  | cons p rest ih =>
    obtain ⟨k, v⟩ := p
    by_cases hk : k = s
    · simp only [addTime, if_pos hk, totalOf, List.map_cons, List.sum_cons]
      ring
    · simp only [addTime, if_neg hk, totalOf, List.map_cons, List.sum_cons]
      simp only [totalOf] at ih
      rw [ih]
      ring

theorem cumLoop_total (startT : ℚ) :
    ∀ (ys : List LogEntry) (tl : ℚ) (sl : String) (curT : ℚ) (curS : String)
      (m : List (String × ℚ)),
      startT ≤ curT → (∀ p ∈ ys, curT ≤ p.1) → (∀ p ∈ ys, p.1 ≤ tl) →
      List.Pairwise (fun a b : LogEntry => a.1 ≤ b.1) ys → curT ≤ tl →
      sl ≠ (ys.map Prod.snd).getLastD curS →
      totalOf (cumLoop startT curT curS (ys ++ [(tl, sl)]) m) =
        totalOf m + (tl - curT) := by
  intro ys
  induction ys with
  | nil =>
    intro tl sl curT curS m hsc _ _ _ _ hne
    have hne' : ¬ sl = curS := by simpa using hne
    simp only [List.nil_append, cumLoop, if_neg hne']
    rw [totalOf_addTime, max_eq_left hsc]
  | cons p ys ih =>
    intro tl sl curT curS m hsc hlo hhi hpw htl hne
    obtain ⟨t, s⟩ := p
    have hys_lo : ∀ q ∈ ys, t ≤ q.1 := fun q hq =>
      (List.pairwise_cons.1 hpw).1 q hq
    have hys_hi : ∀ q ∈ ys, q.1 ≤ tl := fun q hq =>
      hhi q (List.mem_cons_of_mem _ hq)
    have hct : curT ≤ t := hlo (t, s) (List.mem_cons_self _ _)
    have httl : t ≤ tl := hhi (t, s) (List.mem_cons_self _ _)
    by_cases hs : s = curS
    · simp only [List.cons_append, cumLoop, if_pos hs]
      have hne' : sl ≠ (ys.map Prod.snd).getLastD curS := by
        rw [List.map_cons, List.getLastD_cons] at hne
        cases ys with
        | nil => simpa [hs] using hne
        | cons q ys' =>
          rw [List.map_cons, List.getLastD_cons] at hne ⊢
          exact hne
      exact ih tl sl curT curS m hsc
        (fun q hq => le_trans hct (hys_lo q hq)) hys_hi hpw.of_cons htl hne'
    · simp only [List.cons_append, cumLoop, if_neg hs]
      have hne' : sl ≠ (ys.map Prod.snd).getLastD s := by
        rw [List.map_cons, List.getLastD_cons] at hne
        exact hne
      simp only [List.append_eq]
      rw [ih tl sl t s (addTime m curS (t - max curT startT))
        (le_trans hsc hct) hys_lo hys_hi hpw.of_cons httl hne']
      rw [totalOf_addTime, max_eq_left hsc]
      ring

theorem scanBack_id {e : ℚ} :
    ∀ r : List LogEntry, (∀ p ∈ r, 0 ≤ p.1 ∧ p.1 ≤ e) →
      scanBack e 0 r = r := by
  intro r hr
  induction r with
  | nil => rfl
  | cons p rest ih =>
    obtain ⟨t, s⟩ := p
    have hp := hr (t, s) (List.mem_cons_self _ _)
    unfold scanBack
    rw [if_neg (not_lt.2 hp.2), if_neg (not_lt.2 hp.1)]
    rw [ih fun q hq => hr q (List.mem_cons_of_mem _ hq)]

theorem getLogs_full {file : List LogEntry} {now : ℚ}
    (hent : ∀ p ∈ file, 0 ≤ p.1 ∧ p.1 ≤ now) :
    getLogs file 0 now now = file ++ [(now, "idle")] := by
  unfold getLogs reverseReadLine
  show (scanBack (min now now) 0 file.reverse).reverse ++
      [(min now now, "idle")] = _
  rw [min_self,
    scanBack_id file.reverse fun q hq => hent q (List.mem_reverse.1 hq),
    List.reverse_reverse]

theorem pairwise_le_getLast :
    ∀ {l : List LogEntry},
      List.Pairwise (fun a b : LogEntry => a.1 ≤ b.1) l →
      ∀ {bl : LogEntry}, l.getLast? = some bl → ∀ p ∈ l, p.1 ≤ bl.1 := by
  intro l
  induction l with
  | nil =>
    intro _ bl h
    cases h
  | cons a l' ih =>
    intro hpw bl hbl p hp
    cases l' with
    | nil =>
      have hba : bl = a := by simpa using hbl.symm
      have hpa : p = a := by simpa using hp
      rw [hba, hpa]
    | cons b l'' =>
      rw [List.getLast?_cons_cons] at hbl
      have hblmem : bl ∈ b :: l'' := List.mem_of_getLast?_eq_some hbl
      rcases List.mem_cons.1 hp with rfl | hp'
      · exact (List.pairwise_cons.1 hpw).1 bl hblmem
      · exact ih hpw.of_cons hbl p hp'

theorem spliceAfter_ok_shape {logsInside logsAfter : List LogEntry}
    {e : ℚ} {a2 : List LogEntry}
    (h : spliceAfter logsInside logsAfter e = .ok a2) :
    ∃ bS, a2 = (round6 e, bS) :: logsAfter := by
  unfold spliceAfter at h
  split at h
  · cases h
    exact ⟨_, rfl⟩
  · split at h
    · cases h
      exact ⟨_, rfl⟩
    · cases h

theorem dedupAssemble_ok_shape {lb : List LogEntry} {a0 : LogEntry}
    {rest : List LogEntry} {st : ℚ} {ns : String} {g : List LogEntry}
    (hok : dedupAssemble lb (a0 :: rest) st ns = .ok g) :
    ∃ bl, lb.getLast? = some bl ∧
      g = (if bl.2 = ns then lb.dropLast else lb) ++
        [(round6 (if bl.2 = ns then bl.1 else st), ns)] ++
        (if a0.2 = ns then rest else a0 :: rest) := by
  unfold dedupAssemble at hok
  split at hok
  · cases hok
  · rename_i bl hbl
    cases hok
    exact ⟨bl, hbl, rfl⟩

theorem filter_le_of_lt_start {file : List LogEntry} {startT t : ℚ}
    (ht : t < startT) :
    file.filter (fun p => p.1 ≤ t) =
      (file.filter fun p => p.1 < startT).filter fun p => p.1 ≤ t := by
  rw [List.filter_filter]
  apply List.filter_congr
  intro p _
  by_cases h : p.1 ≤ t
  · simp [h, lt_of_le_of_lt h ht]
  · simp [h]

theorem effectiveState_frame_before (file A' : List LogEntry)
    (startT t : ℚ) (ns : String) (bl : LogEntry)
    (hsort : List.Pairwise (fun a b : LogEntry => a.1 ≤ b.1) file)
    (hbl : (file.filter fun p => p.1 < startT).getLast? = some bl)
    (hA : ∀ p ∈ A', startT ≤ p.1)
    (hblr : round6 bl.1 = bl.1) (hrs : round6 startT = startT)
    (ht : t < startT) :
    effectiveState
      ((if bl.2 = ns then (file.filter fun p => p.1 < startT).dropLast
          else file.filter fun p => p.1 < startT) ++
        [(round6 (if bl.2 = ns then bl.1 else startT), ns)] ++ A') t =
      effectiveState file t := by
  have hbsort : List.Pairwise (fun a b : LogEntry => a.1 ≤ b.1)
      (file.filter fun p => p.1 < startT) := hsort.filter _
  have hble : ∀ p ∈ file.filter (fun p => p.1 < startT), p.1 ≤ bl.1 :=
    pairwise_le_getLast hbsort hbl
  have hbsplit : (file.filter fun p => p.1 < startT).dropLast ++ [bl] =
      file.filter fun p => p.1 < startT :=
    List.dropLast_append_getLast? bl hbl
  have hfA : A'.filter (fun p => p.1 ≤ t) = [] := by
    rw [List.filter_eq_nil_iff]
    intro p hp
    simp only [decide_eq_true_eq]
    exact not_le.2 (lt_of_lt_of_le ht (hA p hp))
  unfold effectiveState
  rw [List.filter_append, List.filter_append, hfA, List.append_nil]
  by_cases hd : bl.2 = ns
  · rw [if_pos hd, if_pos hd, hblr]
    by_cases htb : bl.1 ≤ t
    · have hdropfull :
          List.filter (fun p => p.1 ≤ t)
            ((file.filter fun p => p.1 < startT).dropLast) =
          (file.filter fun p => p.1 < startT).dropLast := by
        rw [List.filter_eq_self]
        intro p hp
        simp only [decide_eq_true_eq]
        exact le_trans
          (hble p (List.dropLast_sublist _ |>.mem hp)) htb
      have hbfull : List.filter (fun p => p.1 ≤ t)
          (file.filter fun p => p.1 < startT) =
          file.filter fun p => p.1 < startT := by
        rw [List.filter_eq_self]
        intro p hp
        simp only [decide_eq_true_eq]
        exact le_trans (hble p hp) htb
      have hRHS : List.filter (fun p => p.1 ≤ t) file =
          (file.filter fun p => p.1 < startT).dropLast ++ [bl] := by
        rw [filter_le_of_lt_start ht, hbfull]
        exact hbsplit.symm
      rw [hdropfull, List.filter_cons_of_pos (by simpa using htb),
        List.filter_nil, hRHS, List.getLast?_concat, List.getLast?_concat]
      simp [hd]
    · have hmid : List.filter (fun p => p.1 ≤ t) [((bl.1 : ℚ), ns)] = [] := by
        rw [List.filter_cons_of_neg (by simpa using htb), List.filter_nil]
      have hblf : List.filter (fun p => p.1 ≤ t) [bl] = [] := by
        rw [List.filter_cons_of_neg (by simpa using htb), List.filter_nil]
      have hRHS : List.filter (fun p => p.1 ≤ t) file =
          List.filter (fun p => p.1 ≤ t)
            ((file.filter fun p => p.1 < startT).dropLast) := by
        rw [filter_le_of_lt_start ht]
        conv_lhs => rw [← hbsplit]
        rw [List.filter_append, hblf, List.append_nil]
      rw [hmid, List.append_nil, hRHS]
  · rw [if_neg hd, if_neg hd, hrs]
    have hmid : List.filter (fun p => p.1 ≤ t) [((startT : ℚ), ns)] = [] := by
      rw [List.filter_cons_of_neg (by simpa using not_le.2 ht),
        List.filter_nil]
    rw [hmid, List.append_nil]
    conv_rhs => rw [filter_le_of_lt_start ht]

theorem spliceAfter_ok_of_ne_nil (logsInside logsAfter : List LogEntry)
    (endT : ℚ) (h : logsAfter ≠ []) :
    ∃ a2, spliceAfter logsInside logsAfter endT = .ok a2 := by
  cases hin : logsInside.getLast? with
  | some li =>
    exact ⟨(round6 endT, li.2) :: logsAfter, by simp [spliceAfter, hin]⟩
  | none =>
    cases ha : logsAfter.head? with
    | none => exact absurd (List.head?_eq_none_iff.1 ha) h
    | some a0 =>
      exact ⟨(round6 endT, a0.2) :: logsAfter, by simp [spliceAfter, hin, ha]⟩

/-! ## Claim theorems -/

/-- Claim C1, counterexample: on an empty log the aggregation over the
valid range `[0, 100]` (with the clock at `200`) returns an empty
mapping, whose total is `0`, not `end - start = 100`. -/
theorem c1_coverage_counterexample :
    (0 : ℚ) < 100 ∧ (100 : ℚ) ≤ 200 ∧
      getCumTimes ([] : List LogEntry) 0 100 200 = .ok [] ∧
      totalOf [] ≠ 100 - 0 := by
  refine ⟨by norm_num, by norm_num, rfl, by simp [totalOf]⟩

/-- Claim C2, counterexample: starting from the log
`[(0, work), (200, email), (400, work)]`, which has no adjacent
duplicate states, the single operation `rewrite_history(50, 150,
'leisure')` (with the clock at `500`) stores a log in which two
consecutive entries share the state `email` (and the persisted virtual
close `(500, idle)` sits at the end). -/
theorem c2_no_adjacent_dup_counterexample :
    noAdjDup [(0, "work"), (200, "email"), (400, "work")] ∧
      rewriteHistory [(0, "work"), (200, "email"), (400, "work")] 500 50 150
          "leisure" =
        .ok [(0, "work"), (50, "leisure"), (150, "email"), (200, "email"),
          (400, "work"), (500, "idle")] ∧
      ¬ noAdjDup [(0, "work"), (50, "leisure"), (150, "email"),
        (200, "email"), (400, "work"), (500, "idle")] := by
  refine ⟨by decide, ?_, by decide⟩
  norm_num +decide [rewriteHistory, getLogs, scanBack, reverseReadLine,
    spliceAfter, dedupAssemble, round6]

/-- Claim C1, amended: for a sorted log containing an entry dated at or
before `start`, and whose state in effect at `end` (the state of the
last entry dated at or before `end`) is not `idle`, the sum of all
per-state totals returned by `get_cum_times_per_state(start, end)`
(evaluated with the clock at or after `end`) equals exactly
`end - start`.  The original claim fails on an empty log, on a log whose
earliest entry is later than `start`, and when the state in effect at
`end` is `idle` (its final run merges with the virtual `idle` close and
is never added). -/
theorem c1_coverage_amended (file : List LogEntry) (startT endT now : ℚ)
    (hsort : List.Pairwise (fun a b : LogEntry => a.1 ≤ b.1) file)
    (h1 : startT < endT) (h2 : endT ≤ now)
    (h3 : ∃ p ∈ file, p.1 ≤ startT)
    (h4 : ((file.filter fun p => p.1 ≤ endT).getLast?).map Prod.snd ≠
      some "idle") :
    ∃ m, getCumTimes file startT endT now = .ok m ∧
      totalOf m = endT - startT := by
  have hmin : min endT now = endT := min_eq_left h2
  have hse : startT ≤ min endT now := by rw [hmin]; exact h1.le
  have hL := getLogs_sorted hsort hse
  rw [hmin] at hL
  have hsplit := filter_le_split hsort h1.le
  have hM_lo : ∀ p ∈ file.filter (fun p => startT ≤ p.1 ∧ p.1 ≤ endT),
      startT ≤ p.1 := by
    intro p hp
    have := (List.mem_filter.1 hp).2
    simp only [decide_eq_true_eq] at this
    exact this.1
  have hM_hi : ∀ p ∈ file.filter (fun p => startT ≤ p.1 ∧ p.1 ≤ endT),
      p.1 ≤ endT := by
    intro p hp
    have := (List.mem_filter.1 hp).2
    simp only [decide_eq_true_eq] at this
    exact this.2
  have hM_pw : List.Pairwise (fun a b : LogEntry => a.1 ≤ b.1)
      (file.filter fun p => startT ≤ p.1 ∧ p.1 ≤ endT) :=
    hsort.filter _
  cases hB : (file.filter fun p => p.1 < startT).getLast? with
  | some pb =>
    rw [hB] at hL
    simp only [Option.map_some', Option.toList_some,
      List.singleton_append] at hL
    have hgc : getCumTimes file startT endT now =
        .ok (cumLoop startT startT pb.2
          ((file.filter fun p => startT ≤ p.1 ∧ p.1 ≤ endT) ++
            [(endT, "idle")]) []) := by
      unfold getCumTimes
      rw [if_pos h1, hL]
      rfl
    refine ⟨_, hgc, ?_⟩
    have hne : "idle" ≠
        (((file.filter fun p => startT ≤ p.1 ∧ p.1 ≤ endT).map
          Prod.snd).getLastD pb.2) := by
      rw [mapSnd_getLastD]
      cases hMl : (file.filter fun p => startT ≤ p.1 ∧ p.1 ≤ endT).getLast?
        with
      | none =>
        have hMnil : (file.filter fun p => startT ≤ p.1 ∧ p.1 ≤ endT) = [] :=
          List.getLast?_eq_none_iff.1 hMl
        rw [hsplit, hMnil, List.append_nil, hB] at h4
        simp only [Option.map_some'] at h4
        simp only [Option.map_none', Option.getD_none]
        exact fun h => h4 (by rw [← h])
      | some q =>
        rw [hsplit, List.getLast?_append, hMl] at h4
        simp only [Option.or_some] at h4
        simp only [Option.map_some', Option.getD_some]
        exact fun h => h4 (by simp [← h])
    have := cumLoop_total startT
      (file.filter fun p => startT ≤ p.1 ∧ p.1 ≤ endT) endT "idle"
      startT pb.2 [] le_rfl hM_lo hM_hi hM_pw h1.le hne
    rw [this]
    simp [totalOf]
  | none =>
    rw [hB] at hL
    simp only [Option.map_none', Option.toList_none, List.nil_append] at hL
    have hfilnil : file.filter (fun p => p.1 < startT) = [] :=
      List.getLast?_eq_none_iff.1 hB
    have hge : ∀ p ∈ file, startT ≤ p.1 := by
      intro p hp
      have := List.filter_eq_nil_iff.1 hfilnil p hp
      simp only [decide_eq_true_eq] at this
      exact not_lt.1 this
    obtain ⟨p0, hp0f, hp0le⟩ := h3
    have hp0eq : p0.1 = startT := le_antisymm hp0le (hge p0 hp0f)
    have hp0M : p0 ∈ file.filter (fun p => startT ≤ p.1 ∧ p.1 ≤ endT) := by
      rw [List.mem_filter]
      refine ⟨hp0f, ?_⟩
      simp only [decide_eq_true_eq]
      exact ⟨le_of_eq hp0eq.symm, by rw [hp0eq]; exact h1.le⟩
    obtain ⟨q, M', hMc⟩ :=
      List.exists_cons_of_ne_nil (List.ne_nil_of_mem hp0M)
    have hq1 : q.1 = startT := by
      have hq_lo : startT ≤ q.1 := hM_lo q (hMc ▸ List.mem_cons_self _ _)
      have hq_hi : q.1 ≤ startT := by
        rw [hMc] at hp0M
        rcases List.mem_cons.1 hp0M with rfl | hp0M'
        · exact le_of_eq hp0eq
        · have hpw := hM_pw
          rw [hMc] at hpw
          have := (List.pairwise_cons.1 hpw).1 p0 hp0M'
          rw [hp0eq] at this
          exact this
      exact le_antisymm hq_hi hq_lo
    have hqpair : q = ((startT, q.2) : LogEntry) := by
      rw [← hq1]
    rw [hMc] at hL
    rw [hqpair] at hL
    simp only [List.cons_append] at hL
    have hgc : getCumTimes file startT endT now =
        .ok (cumLoop startT startT q.2 (M' ++ [(endT, "idle")]) []) := by
      unfold getCumTimes
      rw [if_pos h1, hL]
    refine ⟨_, hgc, ?_⟩
    have hM'_lo : ∀ p ∈ M', startT ≤ p.1 := fun p hp =>
      hM_lo p (hMc ▸ List.mem_cons_of_mem _ hp)
    have hM'_hi : ∀ p ∈ M', p.1 ≤ endT := fun p hp =>
      hM_hi p (hMc ▸ List.mem_cons_of_mem _ hp)
    have hM'_pw : List.Pairwise (fun a b : LogEntry => a.1 ≤ b.1) M' := by
      have := hM_pw
      rw [hMc] at this
      exact this.of_cons
    have hne : "idle" ≠ ((M'.map Prod.snd).getLastD q.2) := by
      rw [mapSnd_getLastD]
      cases hMl : M'.getLast? with
      | none =>
        have hM'nil : M' = [] := List.getLast?_eq_none_iff.1 hMl
        rw [hsplit, hfilnil, List.nil_append, hMc, hM'nil] at h4
        simp only [List.getLast?_singleton, Option.map_some'] at h4
        simp only [Option.map_none', Option.getD_none]
        exact fun h => h4 (by rw [← h])
      | some r =>
        rw [hsplit, hfilnil, List.nil_append, hMc] at h4
        have : (q :: M').getLast? = some r := by
          rw [show q :: M' = [q] ++ M' from rfl, List.getLast?_append, hMl]
          rfl
        rw [this] at h4
        simp only [Option.map_some'] at h4
        simp only [Option.map_some', Option.getD_some]
        exact fun h => h4 (by rw [← h])
    have := cumLoop_total startT M' endT "idle" startT q.2 [] le_rfl
      hM'_lo hM'_hi hM'_pw h1.le hne
    rw [this]
    simp [totalOf]

/-- Claim C1, witness: on the single-entry log `[(0, work)]`, the
aggregation over `[0, 100]` with the clock at `100` returns totals
summing to `100 - 0`. -/
theorem c1_coverage_amended_witness :
    ∃ m, getCumTimes [((0 : ℚ), "work")] 0 100 100 = .ok m ∧
      totalOf m = 100 - 0 :=
  c1_coverage_amended [((0 : ℚ), "work")] 0 100 100
    (List.pairwise_singleton _ _) (by norm_num) le_rfl
    ⟨((0 : ℚ), "work"), by simp, le_rfl⟩ (by decide)

/-- Claim C2, amended: after any finite sequence of `maybe_write_log`
appends starting from a log satisfying invariant I1, no two consecutive
stored entries share a state; `rewrite_history` does not preserve this
in general (see the counterexample). -/
theorem c2_appends_preserve_noAdjDup :
    ∀ (ops : List (ℚ × String)) (file g : List LogEntry),
      noAdjDup file → applyAppends file ops = .ok g → noAdjDup g := by
  intro ops
  induction ops with
  | nil =>
    intro file g h hok
    cases hok
    exact h
  | cons op ops ih =>
    intro file g h hok
    obtain ⟨t, s⟩ := op
    unfold applyAppends at hok
    split at hok
    · cases hok
    · rename_i file' hw
      exact ih file' g (maybeWriteLog_ok_noAdjDup h hw) hok

/-- Claim C2, witness: appending `idle` then `idle` again to the
one-entry log `(0, work)` goes through and the resulting stored log has
no adjacent duplicate states. -/
theorem c2_appends_preserve_noAdjDup_witness :
    noAdjDup [((0 : ℚ), "work"), (1, "idle")] :=
  c2_appends_preserve_noAdjDup [((1 : ℚ), "idle"), ((2 : ℚ), "idle")]
    [((0 : ℚ), "work")] [((0 : ℚ), "work"), (1, "idle")] (by decide) rfl

/-- Claim C3: on the log `[(0, work), (100, idle), (200, work)]`,
`rewrite_history(50, 150, 'leisure')` (clock at `300`) succeeds;
aggregating the result over `[50, 150]` yields `leisure` for the whole
interval and `0` for every other state, aggregating over `[0, 50]`
yields `work` for the whole interval and `0` for every other state, and
the `work` total over `[150, 300]` is the same `100` seconds it was on
the original log. -/
theorem c3_rewrite_correctness :
    rewriteHistory [(0, "work"), (100, "idle"), (200, "work")] 300 50 150
        "leisure" =
      .ok [(0, "work"), (50, "leisure"), (150, "idle"), (200, "work"),
        (300, "idle")] ∧
    getCumTimes [(0, "work"), (50, "leisure"), (150, "idle"), (200, "work"),
          (300, "idle")] 50 150 400 =
        .ok [("work", 0), ("leisure", 100)] ∧
    (∀ s, s ≠ "leisure" →
      lookupTime [("work", 0), ("leisure", 100)] s = 0) ∧
    lookupTime [("work", 0), ("leisure", 100)] "leisure" = 150 - 50 ∧
    getCumTimes [(0, "work"), (50, "leisure"), (150, "idle"), (200, "work"),
          (300, "idle")] 0 50 400 =
        .ok [("work", 50), ("leisure", 0)] ∧
    (∀ s, s ≠ "work" → lookupTime [("work", 50), ("leisure", 0)] s = 0) ∧
    lookupTime [("work", 50), ("leisure", 0)] "work" = 50 - 0 ∧
    getCumTimes [(0, "work"), (50, "leisure"), (150, "idle"), (200, "work"),
          (300, "idle")] 150 300 400 =
        .ok [("leisure", 0), ("idle", 50), ("work", 100)] ∧
    getCumTimes [(0, "work"), (100, "idle"), (200, "work")] 150 300 400 =
        .ok [("idle", 50), ("work", 100)] ∧
    lookupTime [("leisure", 0), ("idle", 50), ("work", 100)] "work" =
      lookupTime [("idle", 50), ("work", 100)] "work" := by
  refine ⟨?_, ?_, ?_, by norm_num +decide [lookupTime, List.find?], ?_, ?_,
    by norm_num +decide [lookupTime, List.find?], ?_, ?_,
    by norm_num +decide [lookupTime, List.find?]⟩
  · norm_num +decide [rewriteHistory, getLogs, scanBack, reverseReadLine,
      spliceAfter, dedupAssemble, round6]
  · norm_num +decide [getCumTimes, getLogs, scanBack, reverseReadLine,
      cumLoop, addTime]
  · intro s hs
    rcases eq_or_ne "work" s with h | h
    · simp [lookupTime, List.find?, h]
    · have h2 : "leisure" ≠ s := fun e => hs e.symm
      simp [lookupTime, List.find?, h, h2]
  · norm_num +decide [getCumTimes, getLogs, scanBack, reverseReadLine,
      cumLoop, addTime]
  · intro s hs
    have h : "work" ≠ s := fun e => hs e.symm
    rcases eq_or_ne "leisure" s with h2 | h2 <;>
      simp [lookupTime, List.find?, h, h2]
  · norm_num +decide [getCumTimes, getLogs, scanBack, reverseReadLine,
      cumLoop, addTime]
  · norm_num +decide [getCumTimes, getLogs, scanBack, reverseReadLine,
      cumLoop, addTime]

/-- Claim C4, counterexample: on `[(0, work), (100, idle), (200, work)]`,
`rewrite_history(50, 150, 'leisure')` (clock at `300`) succeeds, yet at
time `320`, outside the rewritten window `[50, 150]`, the state in
effect changes from `work` to `idle`: the virtual `(300, idle)` close is
persisted as a stored entry beyond the most recent real transition. -/
theorem c4_frame_counterexample :
    rewriteHistory [(0, "work"), (100, "idle"), (200, "work")] 300 50 150
        "leisure" =
      .ok [(0, "work"), (50, "leisure"), (150, "idle"), (200, "work"),
        (300, "idle")] ∧
    ((320 : ℚ) < 50 ∨ (150 : ℚ) < 320) ∧
    effectiveState [(0, "work"), (50, "leisure"), (150, "idle"),
        (200, "work"), (300, "idle")] 320 = some "idle" ∧
    effectiveState [(0, "work"), (100, "idle"), (200, "work")] 320 =
      some "work" := by
  refine ⟨?_, Or.inr (by norm_num), by decide, by decide⟩
  norm_num +decide [rewriteHistory, getLogs, scanBack, reverseReadLine,
    spliceAfter, dedupAssemble, round6]

/-- Claim C4, amended: for every successful call
`rewrite_history(start, end, new_state)` on a sorted log of past,
6-decimal-representable timestamps (with `start ≤ end < now` likewise
representable), the effective state at every time strictly before
`start` is unchanged (only the timestamp at the left splice point may
shift, onto an entry carrying the same state).  The original claim's
two other parts fail: the virtual `(now, 'idle')` close is persisted as
a stored entry — violating invariant I2 — and the effective state
sequence after `end` can change (see the counterexample). -/
theorem c4_frame_before_start_amended (file g : List LogEntry)
    (now startT endT : ℚ) (newState : String)
    (hsort : List.Pairwise (fun a b : LogEntry => a.1 ≤ b.1) file)
    (hent : ∀ p ∈ file, 0 ≤ p.1 ∧ p.1 ≤ now)
    (hround : ∀ p ∈ file, round6 p.1 = p.1)
    (hrs : round6 startT = startT) (hre : round6 endT = endT)
    (hse : startT ≤ endT) (hen : endT < now)
    (hok : rewriteHistory file now startT endT newState = .ok g) :
    ∀ t, t < startT → effectiveState g t = effectiveState file t := by
  intro t ht
  unfold rewriteHistory at hok
  rw [getLogs_full hent] at hok
  simp only [List.getLast?_concat] at hok
  rw [if_pos (show endT < (((now : ℚ), "idle") : LogEntry).1 from hen)]
    at hok
  have hBfilter : (file ++ [((now : ℚ), "idle")]).filter
      (fun p => p.1 < startT) = file.filter fun p => p.1 < startT := by
    rw [List.filter_append,
      List.filter_cons_of_neg
        (by simpa using not_lt.2 (le_of_lt (lt_of_le_of_lt hse hen))),
      List.filter_nil, List.append_nil]
  have hAfilter : (file ++ [((now : ℚ), "idle")]).filter
      (fun p => endT < p.1) =
      file.filter (fun p => endT < p.1) ++ [((now : ℚ), "idle")] := by
    rw [List.filter_append, List.filter_cons_of_pos (by simpa using hen),
      List.filter_nil]
  rw [hBfilter, hAfilter] at hok
  cases hsp : spliceAfter
      ((file ++ [((now : ℚ), "idle")]).filter fun p =>
        startT ≤ p.1 ∧ p.1 ≤ endT)
      (file.filter (fun p => endT < p.1) ++ [((now : ℚ), "idle")]) endT with
  | error e =>
    rw [hsp] at hok
    cases hok
  | ok after2 =>
    rw [hsp] at hok
    obtain ⟨bS, rfl⟩ := spliceAfter_ok_shape hsp
    obtain ⟨bl, hbl, hg⟩ := dedupAssemble_ok_shape hok
    subst hg
    apply effectiveState_frame_before file _ startT t newState bl hsort hbl
      ?_ (hround bl (List.mem_of_mem_filter
        (List.mem_of_getLast?_eq_some hbl))) hrs ht
    intro p hp
    have hbase : ∀ q ∈ file.filter (fun p => endT < p.1) ++
        [((now : ℚ), "idle")], startT ≤ q.1 := by
      intro q hq
      rcases List.mem_append.1 hq with hq' | hq'
      · have := (List.mem_filter.1 hq').2
        simp only [decide_eq_true_eq] at this
        exact le_trans hse (le_of_lt this)
      · rw [List.mem_singleton.1 hq']
        exact le_of_lt (lt_of_le_of_lt hse hen)
    by_cases hbs : (((round6 endT, bS)) : LogEntry).2 = newState
    · rw [if_pos hbs] at hp
      exact hbase p hp
    · rw [if_neg hbs] at hp
      rcases List.mem_cons.1 hp with rfl | hp'
      · show startT ≤ round6 endT
        rw [hre]
        exact hse
      · exact hbase p hp'

/-- Claim C4, witness: the rewrite of the counterexample — which
succeeds and produces `[(0, work), (50, leisure), (150, idle),
(200, work), (300, idle)]` — leaves the state in effect at time `20`
(before `start = 50`) unchanged. -/
theorem c4_frame_before_start_amended_witness :
    effectiveState [((0 : ℚ), "work"), (50, "leisure"), (150, "idle"),
      (200, "work"), (300, "idle")] 20 =
      effectiveState [((0 : ℚ), "work"), (100, "idle"), (200, "work")] 20 :=
  c4_frame_before_start_amended
    [((0 : ℚ), "work"), (100, "idle"), (200, "work")]
    [((0 : ℚ), "work"), (50, "leisure"), (150, "idle"), (200, "work"),
      (300, "idle")] 300 50 150 "leisure"
    (by norm_num [List.pairwise_cons]) (by decide)
    (by norm_num +decide [round6, List.forall_mem_cons])
    (by norm_num [round6]) (by norm_num [round6]) (by norm_num)
    (by norm_num)
    (by norm_num +decide [rewriteHistory, getLogs, scanBack,
      reverseReadLine, spliceAfter, dedupAssemble, round6])
    20 (by norm_num)

/-- Claim C5: a `rewrite_history(start, end, state)` call whose `end`
reaches the log's final boundary — the virtual `(now, 'idle')` close
appended by `get_logs` — fails the future-rewrite assertion before
anything is written, and the persisted log equals the file before the
call. -/
theorem c5_future_rewrite_rejected (file : List LogEntry)
    (now startT endT : ℚ) (newState : String) (h : now ≤ endT) :
    rewriteHistory file now startT endT newState =
      .error "AssertionError: Rewriting the future not allowed" ∧
    persistRewrite file now startT endT newState = file := by
  have hlast : (getLogs file 0 now now).getLast? = some (min now now, "idle") := by
    simp [getLogs, List.getLast?_append]
  have hmain : rewriteHistory file now startT endT newState =
      .error "AssertionError: Rewriting the future not allowed" := by
    unfold rewriteHistory
    rw [hlast]
    simp only [min_self]
    rw [if_neg (by exact not_lt.mpr h)]
  exact ⟨hmain, by unfold persistRewrite; rw [hmain]⟩

/-- Claim C5, witness: with the clock at `100`, rewriting up to `150`
on the log `[(0, work)]` raises the future-rewrite assertion and leaves
the log unchanged. -/
theorem c5_future_rewrite_rejected_witness :
    rewriteHistory [((0 : ℚ), "work")] 100 50 150 "idle" =
      .error "AssertionError: Rewriting the future not allowed" ∧
    persistRewrite [((0 : ℚ), "work")] 100 50 150 "idle" =
      [((0 : ℚ), "work")] :=
  c5_future_rewrite_rejected [((0 : ℚ), "work")] 100 50 150 "idle"
    (by norm_num)

/-- Claim C6: on an empty log `current_state` subscripts the `None`
returned by `read_last_log`, raising a `TypeError` instead of signalling
the no-history outcome non-exceptionally. -/
theorem c6_current_state_empty_faults :
    currentState ([] : List LogEntry) = .error "TypeError" := rfl

/-- Claim C7: on a non-empty log whose last entry carries state `s`,
`maybe_write_log` with state `s` returns the log unchanged; and for any
non-empty log, a run of `N ≥ 1` consecutive appends of the same state
equals the single first append (so the stored length after `N` identical
appends equals the length after one). -/
theorem c7_identical_append_dedup (file : List LogEntry) (s : String)
    (h : file ≠ []) :
    (∀ t : ℚ, (readLastLog file).map Prod.snd = some s →
      maybeWriteLog file t s = .ok file) ∧
    (∀ (t : ℚ) (ts : List ℚ),
      applyAppends file ((t, s) :: ts.map fun u => (u, s)) =
        maybeWriteLog file t s) := by
  constructor
  · intro t hlast
    rw [readLastLog_eq_getLast?] at hlast
    unfold maybeWriteLog
    rw [readLastLog_eq_getLast?]
    cases hl : file.getLast? with
    | none => rw [hl] at hlast; cases hlast
    | some p =>
      rw [hl] at hlast
      have hps : p.2 = s := by simpa using hlast
      obtain ⟨t0, s0⟩ := p
      show (if s0 = s then Except.ok file
          else Except.ok (file ++ [(t, s)])) = Except.ok file
      rw [if_pos hps]
  · intro t ts
    cases hw : maybeWriteLog file t s with
    | error e =>
      exfalso
      unfold maybeWriteLog at hw
      rw [readLastLog_eq_getLast?] at hw
      split at hw
      · rename_i heq
        exact h (List.getLast?_eq_none_iff.1 heq)
      · split at hw <;> cases hw
    | ok file' =>
      unfold applyAppends
      rw [hw]
      exact applyAppends_same_state_noop (maybeWriteLog_ok_getLast? hw) ts

/-- Claim C7, witness: on the log `[(0, work)]` whose last state is
`work`, appending `work` at time `5` returns the log unchanged. -/
theorem c7_identical_append_dedup_witness :
    maybeWriteLog [((0 : ℚ), "work")] 5 "work" = .ok [((0 : ℚ), "work")] :=
  (c7_identical_append_dedup [((0 : ℚ), "work")] "work" (by decide)).1 5 rfl

/-- Claim C8: on an empty log, `maybe_write_log` faults unpacking the
`None` returned by `read_last_log` (so no first entry is ever written
through it), and `check_state` on a fresh store faults the same way. -/
theorem c8_append_empty_faults :
    ∀ (t : ℚ) (s : String) (ro : Bool) (s' : String) (now : ℚ),
      maybeWriteLog ([] : List LogEntry) t s = .error "TypeError" ∧
      checkState ro ([] : List LogEntry) s' now = .error "TypeError" := by
  intro t s ro s' now
  exact ⟨rfl, rfl⟩

/-- Claim C9: a `rewrite_history` call (one that passes the
future-rewrite assertion, with `start` not in the future) on a log with
no stored entry dated strictly before `start` reaches the
duplicate-collapse step with an empty before partition, and
`logs_before[-1]` raises an `IndexError` instead of completing; hence a
successful rewrite requires at least one entry before `start`. -/
theorem c9_empty_before_partition_faults (file : List LogEntry)
    (now startT endT : ℚ) (newState : String)
    (hne : ∀ p ∈ file, ¬ p.1 < startT)
    (hsn : startT ≤ now) (hen : endT < now) :
    rewriteHistory file now startT endT newState = .error "IndexError" := by
  have hlast : (getLogs file 0 now now).getLast? =
      some (min now now, "idle") := by
    simp [getLogs, List.getLast?_append]
  have hbefore :
      (getLogs file 0 now now).filter (fun p => p.1 < startT) = [] := by
    rw [List.filter_eq_nil_iff]
    intro p hp
    rcases getLogs_rewrite_mem hp with hmem | ⟨hp0, y, hy, hylt⟩ | rfl
    · simpa using hne p hmem
    · have hsty : startT ≤ y.1 := not_lt.1 (hne y hy)
      have hst0 : startT < 0 := lt_of_le_of_lt hsty hylt
      simp only [hp0, decide_eq_true_eq]
      exact not_lt.2 (le_of_lt hst0)
    · simpa using not_lt.2 hsn
  have hafter_ne :
      (getLogs file 0 now now).filter (fun p => endT < p.1) ≠ [] := by
    have hmem : ((min now now : ℚ), "idle") ∈
        (getLogs file 0 now now).filter (fun p => endT < p.1) := by
      rw [List.mem_filter]
      refine ⟨by simp [getLogs], ?_⟩
      simp only [min_self, decide_eq_true_eq]
      exact hen
    exact List.ne_nil_of_mem hmem
  obtain ⟨a2, hsp⟩ := spliceAfter_ok_of_ne_nil
    ((getLogs file 0 now now).filter fun p => startT ≤ p.1 ∧ p.1 ≤ endT)
    ((getLogs file 0 now now).filter fun p => endT < p.1) endT hafter_ne
  unfold rewriteHistory
  rw [hlast]
  simp only [min_self]
  rw [if_pos hen, hsp, hbefore]
  rfl

/-- Claim C9, witness: with the clock at `200`, rewriting `[50, 80]` on
the log `[(100, work)]` — whose single entry is not before `50` — raises
the `IndexError`. -/
theorem c9_empty_before_partition_faults_witness :
    rewriteHistory [((100 : ℚ), "work")] 200 50 80 "leisure" =
      .error "IndexError" :=
  c9_empty_before_partition_faults [((100 : ℚ), "work")] 200 50 80 "leisure"
    (by decide) (by norm_num) (by norm_num)

/-- Claim C10: the `read_only` flag suppresses no write:
`maybe_append_and_write_log` performs exactly `maybe_write_log`, and
`check_state` behaves identically whether the tracker is read-only or
not — same marker timestamp, same appended log, same changed flag. -/
theorem c10_read_only_suppresses_nothing :
    ∀ (ro : Bool) (file : List LogEntry) (t : ℚ) (s : String) (now : ℚ),
      maybeAppendAndWriteLog ro file t s = maybeWriteLog file t s ∧
      checkState ro file s now = checkState false file s now := by
  intro ro file t s now
  exact ⟨rfl, rfl⟩

end Worktime
